import Mathlib

/-!
Verification of the SourcePacker archiver (src/SourcePacker.py).

The program is shallowly embedded over `List Char` (Python `str`) and
`List Nat` (Python `bytes`, each element intended `< 256`).  Pure text
manipulation (`str.split`, `str.strip`, base64) is translated function by
function from the source; filesystem effects are modelled as explicit data
(file sets are lists of paths, file contents are given by a function,
writes performed by `unpack` are returned as a list).
-/

namespace SourcePacker


/-- Python whitespace predicate, as used by `str.strip` and `str.split()`. -/
def pyIsSpace (c : Char) : Bool :=
  c = ' ' || c = '\t' || c = '\n' || c = '\r' || c = '\x0b' || c = '\x0c'

/-- Python `str.strip()`: drop leading and trailing whitespace. -/
def pyStrip (l : List Char) : List Char :=
  ((l.dropWhile pyIsSpace).reverse.dropWhile pyIsSpace).reverse

/-- Python `str.split(sep)` for a single-character separator `sep`
(used by the source as `header_part.split('\n')`). -/
def splitChar (sep : Char) : List Char → List (List Char)
  | [] => [[]]
  | c :: rest =>
    if c = sep then [] :: splitChar sep rest
    else
      match splitChar sep rest with
      | [] => [[c]]
      | r :: rs => (c :: r) :: rs

/-- Python `str.split(sep, 1)` for a single-character separator: split at the
first occurrence only; `none` when the separator does not occur (the source
guards this with `if ':' in line`). -/
def splitFirstChar (sep : Char) : List Char → Option (List Char × List Char)
  | [] => none
  | c :: rest =>
    if c = sep then some ([], rest)
    else (splitFirstChar sep rest).map (fun p => (c :: p.1, p.2))

/-- Python `str.split('\n\n', 1)` as used on each block: split at the first
occurrence of two consecutive newlines; `none` when there is no occurrence
(in the source this makes the tuple unpacking raise `ValueError`). -/
def splitTwoNL : List Char → Option (List Char × List Char)
  | [] => none
  | c :: rest =>
    if c = '\n' ∧ rest.head? = some '\n' then some ([], rest.tail)
    else (splitTwoNL rest).map (fun p => (c :: p.1, p.2))

/-- Whether the string contains two consecutive newlines. -/
def hasNLNL : List Char → Bool
  | [] => false
  | c :: rest => (decide (c = '\n' ∧ rest.head? = some '\n')) || hasNLNL rest

/-- The file-boundary marker `BOUNDARY` of SourcePacker.py (line 13). -/
def BOUNDARY : List Char := "[--_SOURCE_PACKER_FILE_BOUNDARY_--]".data

/-- Python `content.split(BOUNDARY)`: left-to-right, non-overlapping splitting
on the boundary string.  The `fuel` argument is an upper bound on the length
of the input; it only makes the recursion structural. -/
def splitBAux : Nat → List Char → List (List Char)
  | _, [] => [[]]
  | 0, l => [l]
  | fuel + 1, c :: rest =>
    if BOUNDARY.isPrefixOf (c :: rest) then
      [] :: splitBAux fuel ((c :: rest).drop BOUNDARY.length)
    else
      match splitBAux fuel rest with
      | [] => [[c]]
      | r :: rs => (c :: r) :: rs

/-- Python `content.split(BOUNDARY)` (line 188 of the source). -/
def splitBoundary (l : List Char) : List (List Char) := splitBAux l.length l

/-! ### Base64 (Python `base64.b64encode` / `base64.b64decode`) -/

/-- The standard base64 alphabet. -/
def b64Alphabet : List Char :=
  "ABCDEFGHIJKLMNOPQRSTUVWXYZabcdefghijklmnopqrstuvwxyz0123456789+/".data

/-- The characters that can occur in base64 output (alphabet plus padding). -/
def b64Chars : List Char := b64Alphabet ++ ['=']

/-- The base64 digit for a 6-bit value. -/
def b64Char (n : Nat) : Char := b64Alphabet.getD n 'A'

/-- Value of a base64 digit; `none` for characters outside the alphabet. -/
def b64DecChar (c : Char) : Option Nat := b64Alphabet.findIdx? (· == c)

/-- Python `base64.b64encode` on a byte string (with `=` padding). -/
def b64encode : List Nat → List Char
  | [] => []
  | [a] => [b64Char (a / 4), b64Char (a % 4 * 16), '=', '=']
  | [a, b] => [b64Char (a / 4), b64Char (a % 4 * 16 + b / 16), b64Char (b % 16 * 4), '=']
  | a :: b :: c :: rest =>
    b64Char (a / 4) :: b64Char (a % 4 * 16 + b / 16) ::
      b64Char (b % 16 * 4 + c / 64) :: b64Char (c % 64) :: b64encode rest

/-- Python `base64.b64decode` on a string, modelled as strict standard
base64: groups of four digits, `=`-padding allowed in the final group only;
any deviation is a decode error (`none`), which the source catches as a
per-block exception. -/
def b64decode : List Char → Option (List Nat)
  | [] => some []
  | w :: x :: y :: z :: rest =>
    match b64DecChar w, b64DecChar x with
    | some vw, some vx =>
      if y = '=' then
        if z = '=' ∧ rest = [] then some [vw * 4 + vx / 16] else none
      else
        match b64DecChar y with
        | some vy =>
          if z = '=' then
            if rest = [] then some [vw * 4 + vx / 16, vx % 16 * 16 + vy / 4] else none
          else
            match b64DecChar z, b64decode rest with
            | some vz, some bs =>
              some ((vw * 4 + vx / 16) :: (vx % 16 * 16 + vy / 4) :: (vy % 4 * 64 + vz) :: bs)
            | _, _ => none
        | none => none
    | _, _ => none
  | _ => none

/-! ### The archive format (pack, lines 136-157) -/

/-- One write performed by `unpack`: raw bytes (the Base64 branch, line 211-213)
or verbatim text (the permissive fallback branch for other encodings,
lines 214-217). -/
inductive WriteData where
  | bytes (bs : List Nat) : WriteData
  | text (t : List Char) : WriteData
deriving DecidableEq

/-- Decimal rendering of a byte count, as Python's string formatting of an
`int` (`f"{len(content_binary)}"`). -/
def sizeChars (n : Nat) : List Char := (Nat.repr n).data

/-- Everything one iteration of the pack loop writes after the boundary
marker (lines 149-154): the newline ending the boundary line, the `Path`,
`Size` and `Encoding` header lines, the blank line, the base64 payload and
the trailing newline. -/
def recordBody (rel : List Char) (content : List Nat) : List Char :=
  "\nPath: ".data ++ rel ++ "\nSize: ".data ++ sizeChars content.length ++
    "\nEncoding: Base64\n\n".data ++ b64encode content ++ "\n".data

/-- One full archive record, boundary marker included. -/
def record (rel : List Char) (content : List Nat) : List Char :=
  BOUNDARY ++ recordBody rel content

/-- The archive text written by pack's loop for an already-sorted list of
(relative path, raw bytes) pairs: the records concatenated in order. -/
def packArchive (files : List (List Char × List Nat)) : List Char :=
  (files.map (fun f => record f.1 f.2)).flatten

/-! ### Path strings.  Paths are modelled as POSIX strings: components
separated by a single '/', absolute paths starting with '/'.  Inputs are
assumed already in the normalized form `Path.resolve()` produces, so a
component-wise model of `pathlib` operations is faithful. -/

/-- The '/'-separated components of a path string. -/
def splitSlash (p : List Char) : List (List Char) := splitChar '/' p

/-- Reassemble components with '/' separators. -/
def joinSlash (cs : List (List Char)) : List Char := List.intercalate "/".data cs

/-- Python `file_path.relative_to(base_dir).as_posix()` (line 142):
succeeds iff `base`'s components are a prefix of `p`'s, returning the
remainder; raises (`none`) otherwise.  `relative_to` of a path to itself
yields `.`. -/
def relTo (base p : List Char) : Option (List Char) :=
  let bc := splitSlash base
  let pc := splitSlash p
  if bc.isPrefixOf pc then
    if pc.drop bc.length = [] then some ".".data
    else some (joinSlash (pc.drop bc.length))
  else none

/-- The write loop of `pack` (lines 138-157): sort the file set (Python
sorts `Path`s by their string form), then for each file compute its
base-relative path and append its record; a file for which `relative_to`
raises is skipped with a warning and contributes nothing.  File contents
are supplied by `g` (the `open(file_path, 'rb').read()` result). -/
def pack (base : List Char) (paths : List (List Char)) (g : List Char → List Nat) : List Char :=
  ((List.insertionSort (· ≤ ·) paths).filterMap
    (fun p => (relTo base p).map (fun rel => record rel (g p)))).flatten

/-- Number of files the pack loop skips with a warning because
`relative_to` raises. -/
def packSkipped (base : List Char) (paths : List (List Char)) : Nat :=
  ((List.insertionSort (· ≤ ·) paths).filter (fun p => (relTo base p).isNone)).length

/-! ### unpack (lines 183-227) -/

/-- Parsing of one header line (lines 194-197): lines without a colon are
ignored; otherwise split at the first colon and strip both sides. -/
def parseHeaderLine (line : List Char) : Option (List Char × List Char) :=
  match splitFirstChar ':' line with
  | none => none
  | some (k, v) => some (pyStrip k, pyStrip v)

/-- The `headers` mapping built from the header part of a block. -/
def parseHeaders (hdr : List Char) : List (List Char × List Char) :=
  (splitChar '\n' hdr).filterMap parseHeaderLine

/-- Python `dict` lookup over the assignment list (later assignments win). -/
def dictGet (hs : List (List Char × List Char)) (k : List Char) : Option (List Char) :=
  hs.foldl (fun acc p => if p.1 = k then some p.2 else acc) none

/-- Processing of one block (lines 190-220): strip it, split at the first
blank line (a failure raises and the block is skipped), parse the headers,
skip with a warning when `Path` is missing, then either base64-decode the
stripped payload (skipping the block when decoding raises) or fall back to
writing the payload verbatim as text.  `some (rel, d)` is the write this
block performs to `output_root / rel`; `none` means the block was skipped
with a warning. -/
def processBlock (block : List Char) : Option (List Char × WriteData) :=
  match splitTwoNL (pyStrip block) with
  | none => none
  | some (headerPart, dataPart) =>
    let headers := parseHeaders headerPart
    match dictGet headers "Path".data with
    | none => none
    | some rel =>
      match dictGet headers "Encoding".data with
      | some enc =>
        if enc = "Base64".data then
          match b64decode (pyStrip dataPart) with
          | some bs => some (rel, WriteData.bytes bs)
          | none => none
        else some (rel, WriteData.text dataPart)
      | none => some (rel, WriteData.text dataPart)

/-- `file_blocks` (line 188): split the archive on the boundary and drop
whitespace-only segments. -/
def unpackBlocks (content : List Char) : List (List Char) :=
  (splitBoundary content).filter (fun b => !(pyStrip b).isEmpty)

/-- The writes `unpack` performs, in order. -/
def unpackWrites (content : List Char) : List (List Char × WriteData) :=
  (unpackBlocks content).filterMap processBlock

/-- The count `unpack` reports as `Total files restored` (line 223):
`len(file_blocks)`. -/
def reportedRestored (content : List Char) : Nat := (unpackBlocks content).length

/-- Number of blocks `unpack` skips with a warning. -/
def unpackSkipped (content : List Char) : Nat :=
  ((unpackBlocks content).filter (fun b => (processBlock b).isNone)).length

/-! ### Where unpack writes (lines 203-207): `output_root / Path(rel)` -/

/-- Python `pathlib` `/` (line 204): joining with an absolute right-hand
path discards the left-hand side. -/
def joinPath (base p : List Char) : List Char :=
  if p.head? = some '/' then p else base ++ '/' :: p

/-- One step of lexical path normalization: empty and `.` components vanish,
`..` removes the previous component (staying at the root when there is
none), anything else is kept. -/
def normStep (stack : List (List Char)) (c : List Char) : List (List Char) :=
  if c = [] ∨ c = ".".data then stack
  else if c = "..".data then stack.dropLast
  else stack ++ [c]

/-- The components of the file-system location an absolute path string
denotes (lexical form of resolution; symlinks are not modelled). -/
def normComps (p : List Char) : List (List Char) :=
  (splitSlash p).foldl normStep []

/-- Canonical absolute path string for a path (model of `Path.resolve()`
on an already-absolute path, without symlinks). -/
def resolveP (p : List Char) : List Char := '/' :: joinSlash (normComps p)

/-- The location `p` denotes lies strictly inside the directory `root`. -/
def isStrictlyUnder (root p : List Char) : Prop :=
  normComps root <+: normComps p ∧ normComps root ≠ normComps p

instance (root p : List Char) : Decidable (isStrictlyUnder root p) := by
  unfold isStrictlyUnder
  infer_instance

/-! ### Well-behaved inputs for the round trip -/

/-- Relative paths for which the archive headers are read back verbatim:
nonempty, ASCII (the archive file is opened with `encoding='ascii'`),
containing no newline (the header parser splits the header block on
newlines), neither starting nor ending with whitespace (`str.strip` on the
header value trims the ends only, so interior whitespace is fine), and not
containing the boundary marker. -/
def goodPath (p : List Char) : Prop :=
  p ≠ [] ∧ (∀ c ∈ p, c.toNat < 128) ∧ '\n' ∉ p ∧
    pyIsSpace (p.headD ' ') = false ∧ pyIsSpace (p.getLastD ' ') = false ∧
    ¬ (BOUNDARY <:+: p)

/-- Byte strings as read from a file in binary mode, nonempty. -/
def goodContent (c : List Nat) : Prop := c ≠ [] ∧ ∀ b ∈ c, b < 256

instance (p : List Char) : Decidable (goodPath p) := by
  unfold goodPath
  infer_instance

instance (c : List Nat) : Decidable (goodContent c) := by
  unfold goodContent
  infer_instance

/-- Path components that name a real child entry (not `.`, not empty). -/
def isRealComp (c : List Char) : Bool := decide (c ≠ [] ∧ c ≠ ".".data)

/-! ### Project-based packing (.vcxproj targets, lines 42-68 and 94-113) -/

/-- One XML element of a project document as seen by `parse_vcxproj`:
its tag (namespace stripped) and its `Include` attribute when present. -/
structure XmlItem where
  tag : String
  inc : Option (List Char)
deriving DecidableEq

/-- The allow-list `item_tags` (line 53). -/
def item_tags : List String :=
  ["ClCompile", "ClInclude", "ResourceCompile", "None", "Image", "CustomBuild", "FxCompile"]

/-- Python `vcxproj_path.parent`. -/
def parentDir (p : List Char) : List Char := joinSlash ((splitSlash p).dropLast)

/-- `parse_vcxproj` (lines 42-68): for every element whose tag is in
`item_tags` and that has an `Include` attribute, resolve the attribute
value against the project file's directory and keep the resolved path when
it is an existing file (`fs` answers `Path.is_file()`). -/
def parse_vcxproj (fs : List Char → Bool) (vcxprojDir : List Char)
    (items : List XmlItem) : List (List Char) :=
  items.filterMap fun it =>
    if it.tag ∈ item_tags then
      match it.inc with
      | some p =>
        if fs (joinPath vcxprojDir p) then some (resolveP (joinPath vcxprojDir p)) else none
      | none => none
    else none

/-- `files_to_pack` for a `.vcxproj` target (lines 94-113): the project
file itself, its sibling filters file when it exists
(`with_suffix('.vcxproj.filters')` on a `.vcxproj` path appends
`.filters`), and everything `parse_vcxproj` reports. -/
def filesToPackVcx (fs : List Char → Bool) (target : List Char)
    (items : List XmlItem) : List (List Char) :=
  target :: ((if fs (target ++ ".filters".data) then [target ++ ".filters".data] else [])
    ++ parse_vcxproj fs (parentDir target) items)

/-! ### Directory-based packing (os.walk with DEFAULT_EXCLUDES, lines 14-18
and 119-126) -/

/-- `DEFAULT_EXCLUDES['dirs']` (line 15), verbatim from the source
(note `Debug` and `Release` keep their capitals there). -/
def DEFAULT_EXCLUDES_dirs : List String :=
  ["__pycache__", ".git", ".vs", "x64", "Debug", "Release", "ipch"]

/-- `DEFAULT_EXCLUDES['files']` (line 16). -/
def DEFAULT_EXCLUDES_files : List String := [".suo", ".user"]

/-- `DEFAULT_EXCLUDES['exts']` (line 17). -/
def DEFAULT_EXCLUDES_exts : List String :=
  [".obj", ".ilk", ".pdb", ".tlog", ".pch", ".res", ".exe", ".dll", ".lib", ".ncb", ".sdf"]

/-- Python `str.lower()` (ASCII case folding; all names the program
compares against are ASCII). -/
def lowerS (s : String) : String := String.mk (s.data.map Char.toLower)

/-- Python `pathlib` `suffix` of a file name: the part from the last dot
on, empty when the only dot is leading or trailing. -/
def pathSuffix (name : String) : String :=
  match name.data.reverse.findIdx? (· == '.') with
  | none => ""
  | some j =>
    let i := name.data.length - 1 - j
    if 0 < i ∧ i < name.data.length - 1 then String.mk (name.data.drop i) else ""

mutual

inductive DirTree where
  | node (files : List String) (subdirs : DirForest) : DirTree

inductive DirForest where
  | nil : DirForest
  | cons (name : String) (d : DirTree) (rest : DirForest) : DirForest

end

mutual

/-- The `os.walk` collection loop of `pack` for a directory target
(lines 119-126): at each level prune subdirectories whose lower-cased name
is in the excluded-dirs set before descending, and keep a file unless its
lower-cased name is in the excluded-files set or its lower-cased suffix is
in the excluded-extensions set.  Each collected file is reported as
(directory components below the walked root, file name). -/
def collect : DirTree → List (List String × String)
  | .node files subdirs =>
    (files.filterMap fun f =>
      if lowerS f ∉ DEFAULT_EXCLUDES_files ∧ lowerS (pathSuffix f) ∉ DEFAULT_EXCLUDES_exts
      then some ([], f) else none) ++ collectF subdirs

/-- Collection over the pruned subdirectory list. -/
def collectF : DirForest → List (List String × String)
  | .nil => []
  | .cons name d rest =>
    (if lowerS name ∉ DEFAULT_EXCLUDES_dirs
      then (collect d).map (fun q => (name :: q.1, q.2)) else [])
      ++ collectF rest

end

/-- The exclusion conditions of the spec, on one collected file: no
directory on its path below the root has an excluded lower-cased name, its
lower-cased name is not an excluded file name, and its lower-cased suffix
is not an excluded extension. -/
def pathClean (q : List String × String) : Bool :=
  (q.1.all fun d => decide (lowerS d ∉ DEFAULT_EXCLUDES_dirs)) &&
    decide (lowerS q.2 ∉ DEFAULT_EXCLUDES_files) &&
    decide (lowerS (pathSuffix q.2) ∉ DEFAULT_EXCLUDES_exts)

/-! ### Theorems -/

theorem b64DecChar_b64Char : ∀ n, n < 64 → b64DecChar (b64Char n) = some n := by decide

theorem b64Char_mem : ∀ n, b64Char n ∈ b64Alphabet := by
  intro n
  by_cases h : n < b64Alphabet.length
  · have he : b64Char n = b64Alphabet[n] := by
      rw [b64Char, List.getD_eq_getElem?_getD, List.getElem?_eq_getElem h]
      rfl
    rw [he]
    exact List.getElem_mem h
  · have he : b64Char n = 'A' := List.getD_eq_default _ _ (by omega)
    rw [he]
    decide

theorem b64Char_ne_pad : ∀ n, b64Char n ≠ '=' := by
  intro n h
  have := b64Char_mem n
  rw [h] at this
  revert this
  decide

theorem b64encode_subset : ∀ l, ∀ c ∈ b64encode l, c ∈ b64Chars := by
  intro l
  induction l using b64encode.induct with
  | case1 => intro c hc; simp [b64encode] at hc
  | case2 a =>
    intro c hc
    simp only [b64encode, List.mem_cons, List.not_mem_nil, or_false] at hc
    rcases hc with rfl | rfl | rfl | rfl <;>
      first
        | exact List.mem_append_left _ (b64Char_mem _)
        | exact List.mem_append_right _ (by decide)
  | case3 a b =>
    intro c hc
    simp only [b64encode, List.mem_cons, List.not_mem_nil, or_false] at hc
    rcases hc with rfl | rfl | rfl | rfl <;>
      first
        | exact List.mem_append_left _ (b64Char_mem _)
        | exact List.mem_append_right _ (by decide)
  | case4 a b c rest ih =>
    intro d hd
    simp only [b64encode, List.mem_cons] at hd
    rcases hd with h | h | h | h | h
    · subst h; exact List.mem_append_left _ (b64Char_mem _)
    · subst h; exact List.mem_append_left _ (b64Char_mem _)
    · subst h; exact List.mem_append_left _ (b64Char_mem _)
    · subst h; exact List.mem_append_left _ (b64Char_mem _)
    · exact ih d h

theorem b64_roundtrip : ∀ l, (∀ b ∈ l, b < 256) → b64decode (b64encode l) = some l := by
  intro l
  induction l using b64encode.induct with
  | case1 => intro _; rfl
  | case2 a =>
    intro h
    have ha : a < 256 := h a (by simp)
    have h1 : a / 4 < 64 := by omega
    have h2 : a % 4 * 16 < 64 := by omega
    have e1 : a / 4 * 4 + a % 4 * 16 / 16 = a := by omega
    simp only [b64encode, b64decode, b64DecChar_b64Char _ h1, b64DecChar_b64Char _ h2]
    simp
    omega
  | case3 a b =>
    intro h
    have ha : a < 256 := h a (by simp)
    have hb : b < 256 := h b (by simp)
    have h1 : a / 4 < 64 := by omega
    have h2 : a % 4 * 16 + b / 16 < 64 := by omega
    have h3 : b % 16 * 4 < 64 := by omega
    have e1 : a / 4 * 4 + (a % 4 * 16 + b / 16) / 16 = a := by omega
    have e2 : (a % 4 * 16 + b / 16) % 16 * 16 + b % 16 * 4 / 4 = b := by omega
    simp only [b64encode, b64decode, b64DecChar_b64Char _ h1, b64DecChar_b64Char _ h2,
      b64DecChar_b64Char _ h3]
    rw [if_neg (b64Char_ne_pad _)]
    simp
    omega
  | case4 a b c rest ih =>
    intro h
    have ha : a < 256 := h a (by simp)
    have hb : b < 256 := h b (by simp)
    have hc : c < 256 := h c (by simp)
    have h1 : a / 4 < 64 := by omega
    have h2 : a % 4 * 16 + b / 16 < 64 := by omega
    have h3 : b % 16 * 4 + c / 64 < 64 := by omega
    have h4 : c % 64 < 64 := by omega
    have hrest := ih (fun x hx => h x (by simp [hx]))
    have e1 : a / 4 * 4 + (a % 4 * 16 + b / 16) / 16 = a := by omega
    have e2 : (a % 4 * 16 + b / 16) % 16 * 16 + (b % 16 * 4 + c / 64) / 4 = b := by omega
    have e3 : (b % 16 * 4 + c / 64) % 4 * 64 + c % 64 = c := by omega
    simp only [b64encode, b64decode, b64DecChar_b64Char _ h1, b64DecChar_b64Char _ h2,
      b64DecChar_b64Char _ h3, b64DecChar_b64Char _ h4]
    rw [if_neg (b64Char_ne_pad _), if_neg (b64Char_ne_pad _), hrest]
    simp
    omega

theorem b64encode_ne_nil : ∀ (l : List Nat), l ≠ [] → b64encode l ≠ [] := by
  intro l hl
  match l with
  | [a] => simp [b64encode]
  | [a, b] => simp [b64encode]
  | a :: b :: c :: rest => simp [b64encode]

/-! ### Behaviour of `splitBoundary` -/

theorem isPrefixOf_iff {l₁ l₂ : List Char} : l₁.isPrefixOf l₂ = true ↔ l₁ <+: l₂ :=
  List.isPrefixOf_iff_prefix

theorem splitBAux_nil : ∀ f, splitBAux f [] = [[]] := by
  intro f; cases f <;> rfl

theorem splitBAux_fuel : ∀ f₁ f₂ (l : List Char), l.length ≤ f₁ → l.length ≤ f₂ →
    splitBAux f₁ l = splitBAux f₂ l := by
  intro f₁
  induction f₁ with
  | zero =>
    intro f₂ l h1 _
    have : l = [] := List.eq_nil_of_length_eq_zero (Nat.le_zero.mp h1)
    subst this
    rw [splitBAux_nil, splitBAux_nil]
  | succ g ih =>
    intro f₂ l h1 h2
    cases l with
    | nil => rw [splitBAux_nil, splitBAux_nil]
    | cons c rest =>
      cases f₂ with
      | zero => simp at h2
      | succ g₂ =>
        simp only [splitBAux]
        have hB : 0 < BOUNDARY.length := by decide
        simp only [List.length_cons] at h1 h2
        by_cases hp : BOUNDARY.isPrefixOf (c :: rest) = true
        · rw [if_pos hp, if_pos hp]
          rw [ih g₂ _ (by simp only [List.length_drop, List.length_cons]; omega)
            (by simp only [List.length_drop, List.length_cons]; omega)]
        · rw [if_neg hp, if_neg hp]
          rw [ih g₂ rest (by omega) (by omega)]

theorem splitBAux_ne_nil : ∀ f (l : List Char), splitBAux f l ≠ [] := by
  intro f l
  cases l with
  | nil => rw [splitBAux_nil]; simp
  | cons c rest =>
    cases f with
    | zero => simp [splitBAux]
    | succ g =>
      simp only [splitBAux]
      by_cases hp : BOUNDARY.isPrefixOf (c :: rest) = true
      · rw [if_pos hp]; simp
      · rw [if_neg hp]
        cases h : splitBAux g rest <;> simp

theorem splitBoundary_ne_nil (l : List Char) : splitBoundary l ≠ [] := splitBAux_ne_nil _ _

theorem splitBoundary_nil : splitBoundary [] = [[]] := rfl

theorem splitBoundary_cons_match {l : List Char} (h : BOUNDARY <+: l) :
    splitBoundary l = [] :: splitBoundary (l.drop BOUNDARY.length) := by
  cases l with
  | nil =>
    exfalso
    have : BOUNDARY = [] := List.prefix_nil.mp h
    revert this
    decide
  | cons c rest =>
    have hp : BOUNDARY.isPrefixOf (c :: rest) = true := isPrefixOf_iff.mpr h
    show splitBAux (rest.length + 1) (c :: rest) = _
    simp only [splitBAux]
    rw [if_pos hp]
    congr 1
    apply splitBAux_fuel
    · simp only [List.length_drop, List.length_cons]
      have : 0 < BOUNDARY.length := by decide
      omega
    · exact Nat.le_refl _

theorem splitBoundary_cons_nomatch {c : Char} {rest hd : List Char} {tl : List (List Char)}
    (h : ¬ BOUNDARY <+: (c :: rest)) (hs : splitBoundary rest = hd :: tl) :
    splitBoundary (c :: rest) = (c :: hd) :: tl := by
  have hp : ¬ (BOUNDARY.isPrefixOf (c :: rest) = true) := fun hx => h (isPrefixOf_iff.mp hx)
  show splitBAux (rest.length + 1) (c :: rest) = _
  simp only [splitBAux]
  rw [if_neg hp]
  rw [show splitBAux rest.length rest = splitBoundary rest from rfl, hs]

theorem not_prefix_junction {chunk : List Char} (rest : List Char) (hne : chunk ≠ [])
    (h : ¬ BOUNDARY <:+: chunk) : ¬ BOUNDARY <+: (chunk ++ BOUNDARY ++ rest) := by
  intro hpre
  have heq : BOUNDARY = (chunk ++ BOUNDARY ++ rest).take BOUNDARY.length :=
    List.prefix_iff_eq_take.mp hpre
  by_cases hk : BOUNDARY.length ≤ chunk.length
  · have hte : BOUNDARY = chunk.take BOUNDARY.length := by
      conv_lhs => rw [heq]
      rw [List.append_assoc, List.take_append_eq_append_take,
        Nat.sub_eq_zero_of_le hk, List.take_zero, List.append_nil]
    have hpfx : BOUNDARY <+: chunk := by
      rw [hte]; exact List.take_prefix _ _
    exact h hpfx.isInfix
  · push_neg at hk
    have hkpos : 0 < chunk.length := List.length_pos.mpr hne
    have heq2 : BOUNDARY = chunk ++ BOUNDARY.take (BOUNDARY.length - chunk.length) := by
      conv_lhs => rw [heq]
      rw [List.append_assoc, List.take_append_eq_append_take,
        List.take_of_length_le (le_of_lt hk)]
      congr 1
      rw [List.take_append_eq_append_take,
        show BOUNDARY.length - chunk.length - BOUNDARY.length = 0 from by omega,
        List.take_zero, List.append_nil]
    have hidx : BOUNDARY[chunk.length]? = some '[' := by
      calc BOUNDARY[chunk.length]?
          = (chunk ++ BOUNDARY.take (BOUNDARY.length - chunk.length))[chunk.length]? := by
            conv_lhs => rw [heq2]
        _ = (BOUNDARY.take (BOUNDARY.length - chunk.length))[0]? := by
            rw [List.getElem?_append_right (Nat.le_refl _), Nat.sub_self]
        _ = BOUNDARY[0]? := by
            rw [List.getElem?_take, if_pos (by omega)]
        _ = some '[' := by decide
    have hno : ∀ j, j < 35 → 1 ≤ j → ¬ (BOUNDARY[j]? = some '[') := by decide
    have h35 : BOUNDARY.length = 35 := by decide
    exact hno chunk.length (by omega) (by omega) hidx

theorem splitBoundary_append (chunk rest : List Char) (h : ¬ BOUNDARY <:+: chunk) :
    splitBoundary (chunk ++ BOUNDARY ++ rest) = chunk :: splitBoundary rest := by
  induction chunk with
  | nil =>
    simp only [List.nil_append]
    rw [splitBoundary_cons_match (List.prefix_append _ _), List.drop_left]
  | cons c ch ih =>
    have hni : ¬ BOUNDARY <:+: ch := fun hx => h (List.infix_cons hx)
    have hnp : ¬ BOUNDARY <+: ((c :: ch) ++ BOUNDARY ++ rest) :=
      not_prefix_junction rest (by simp) h
    have hstep := ih hni
    have hassoc : (c :: ch) ++ BOUNDARY ++ rest = c :: (ch ++ BOUNDARY ++ rest) := by simp
    rw [hassoc]
    rw [hassoc] at hnp
    exact splitBoundary_cons_nomatch hnp hstep

theorem splitBoundary_no_occ {l : List Char} (h : ¬ BOUNDARY <:+: l) : splitBoundary l = [l] := by
  induction l with
  | nil => rfl
  | cons c r ih =>
    have hni : ¬ BOUNDARY <:+: r := fun hx => h (List.infix_cons hx)
    have hnp : ¬ BOUNDARY <+: (c :: r) := fun hx => h hx.isInfix
    exact splitBoundary_cons_nomatch hnp (ih hni)

theorem splitBoundary_flatten (bodies : List (List Char))
    (h : ∀ b ∈ bodies, ¬ BOUNDARY <:+: b) :
    splitBoundary ((bodies.map (fun b => BOUNDARY ++ b)).flatten) = [] :: bodies := by
  induction bodies with
  | nil => rfl
  | cons b bs ih =>
    cases bs with
    | nil =>
      simp only [List.map_cons, List.map_nil, List.flatten_cons, List.flatten_nil,
        List.append_nil]
      rw [splitBoundary_cons_match (List.prefix_append _ _), List.drop_left]
      rw [splitBoundary_no_occ (h b (by simp))]
    | cons b2 bs2 =>
      have hb : ¬ BOUNDARY <:+: b := h b (by simp)
      have ih2 := ih (fun x hx => h x (List.mem_cons_of_mem _ hx))
      have hflat : (((b2 :: bs2).map (fun x => BOUNDARY ++ x)).flatten)
          = BOUNDARY ++ (b2 ++ ((bs2.map (fun x => BOUNDARY ++ x)).flatten)) := by
        simp [List.append_assoc]
      have htail : splitBoundary (b2 ++ ((bs2.map (fun x => BOUNDARY ++ x)).flatten))
          = b2 :: bs2 := by
        rw [hflat] at ih2
        rw [splitBoundary_cons_match (List.prefix_append _ _), List.drop_left] at ih2
        injection ih2
      have hw : (((b :: b2 :: bs2).map (fun x => BOUNDARY ++ x)).flatten)
          = BOUNDARY ++ (b ++ BOUNDARY ++ (b2 ++ ((bs2.map (fun x => BOUNDARY ++ x)).flatten))) := by
        simp [List.append_assoc]
      rw [hw, splitBoundary_cons_match (List.prefix_append _ _), List.drop_left,
        splitBoundary_append _ _ hb, htail]

/-! ### Infix decomposition helpers -/

theorem prefix_of_prefix_append_cons {α : Type} {b u r : List α} {c : α}
    (hc : c ∉ b) (h : b <+: u ++ c :: r) : b <+: u := by
  have heq := List.prefix_iff_eq_take.mp h
  by_cases hk : b.length ≤ u.length
  · have hbt : b = u.take b.length := by
      conv_lhs => rw [heq]
      rw [List.take_append_eq_append_take, Nat.sub_eq_zero_of_le hk,
        List.take_zero, List.append_nil]
    rw [hbt]
    exact List.take_prefix _ _
  · exfalso
    push_neg at hk
    have hbt : b = u ++ (c :: r).take (b.length - u.length) := by
      conv_lhs => rw [heq]
      rw [List.take_append_eq_append_take, List.take_of_length_le (le_of_lt hk)]
    have hmem : c ∈ b := by
      rw [hbt]
      obtain ⟨m, hm⟩ : ∃ m, b.length - u.length = m + 1 :=
        ⟨b.length - u.length - 1, by omega⟩
      rw [hm, List.take_succ_cons]
      exact List.mem_append_right _ (List.mem_cons_self _ _)
    exact hc hmem

theorem infix_split_cons {α : Type} {b u r : List α} {c : α}
    (hc : c ∉ b) (hne : b ≠ []) (h : b <:+: u ++ c :: r) : b <:+: u ∨ b <:+: r := by
  induction u with
  | nil =>
    rw [List.nil_append, List.infix_cons_iff] at h
    rcases h with hp | hi
    · exfalso
      obtain ⟨x, b', rfl⟩ : ∃ x b', b = x :: b' := by
        cases b with
        | nil => simp at hne
        | cons x b' => exact ⟨x, b', rfl⟩
      rw [List.cons_prefix_cons] at hp
      exact hc (hp.1 ▸ List.mem_cons_self _ _)
    · exact Or.inr hi
  | cons x u' ih =>
    rw [List.cons_append, List.infix_cons_iff] at h
    rcases h with hp | hi
    · left
      have hpp : b <+: (x :: u') := by
        apply prefix_of_prefix_append_cons hc
        rw [List.cons_append]
        exact hp
      exact hpp.isInfix
    · rcases ih hi with h1 | h2
      · exact Or.inl (List.infix_cons h1)
      · exact Or.inr h2

theorem infix_right_of_head_free {α : Type} {b u v : List α} (h0 : α)
    (hhd : b.head? = some h0) (hfree : h0 ∉ u) (h : b <:+: u ++ v) : b <:+: v := by
  induction u with
  | nil => simpa using h
  | cons x u' ih =>
    rw [List.cons_append, List.infix_cons_iff] at h
    rcases h with hp | hi
    · exfalso
      obtain ⟨b', rfl⟩ : ∃ b', b = h0 :: b' := by
        cases b with
        | nil => simp at hhd
        | cons y b' =>
          simp only [List.head?_cons, Option.some.injEq] at hhd
          exact ⟨b', by rw [hhd]⟩
      rw [List.cons_prefix_cons] at hp
      exact hfree (hp.1 ▸ List.mem_cons_self _ _)
    · exact ih (fun hx => hfree (List.mem_cons_of_mem _ hx)) hi

/-! ### Behaviour of `splitTwoNL` -/

theorem splitTwoNL_append {a b : List Char} (h : hasNLNL (a ++ ['\n']) = false) :
    splitTwoNL (a ++ '\n' :: '\n' :: b) = some (a, b) := by
  induction a with
  | nil => simp [splitTwoNL]
  | cons x a' ih =>
    simp only [List.cons_append, hasNLNL, Bool.or_eq_false_iff,
      decide_eq_false_iff_not] at h
    have hh : (a' ++ '\n' :: '\n' :: b).head? = (a' ++ ['\n']).head? := by
      rw [List.head?_append, List.head?_append]
      rfl
    show splitTwoNL (x :: (a' ++ '\n' :: '\n' :: b)) = some (x :: a', b)
    simp only [splitTwoNL]
    rw [if_neg (by rw [hh]; exact h.1)]
    rw [ih h.2]
    rfl

/-! ### Character-class facts -/

theorem digits_props : ∀ c ∈ "0123456789".data,
    pyIsSpace c = false ∧ c ≠ '\n' ∧ c ≠ '[' := by decide

theorem b64Chars_props : ∀ c ∈ b64Chars,
    pyIsSpace c = false ∧ c ≠ '\n' ∧ c ≠ '[' := by decide

theorem toDigitsCore_subset : ∀ (f n : Nat) (acc : List Char),
    (∀ c ∈ acc, c ∈ "0123456789".data) →
    ∀ c ∈ Nat.toDigitsCore 10 f n acc, c ∈ "0123456789".data := by
  intro f
  induction f with
  | zero => intro n acc hacc c hc; rw [Nat.toDigitsCore] at hc; exact hacc c hc
  | succ g ih =>
    intro n acc hacc c hc
    rw [Nat.toDigitsCore] at hc
    have hd : Nat.digitChar (n % 10) ∈ "0123456789".data := by
      have hlt : n % 10 < 10 := Nat.mod_lt _ (by omega)
      generalize n % 10 = m at hlt
      interval_cases m <;> decide
    by_cases hz : n / 10 = 0
    · rw [if_pos hz] at hc
      rcases List.mem_cons.mp hc with rfl | hmem
      · exact hd
      · exact hacc c hmem
    · rw [if_neg hz] at hc
      exact ih (n / 10) _ (fun x hx => by
        rcases List.mem_cons.mp hx with rfl | hmem
        · exact hd
        · exact hacc x hmem) c hc

theorem sizeChars_subset (n : Nat) : ∀ c ∈ sizeChars n, c ∈ "0123456789".data := by
  intro c hc
  have he : sizeChars n = Nat.toDigitsCore 10 (n + 1) n [] := rfl
  rw [he] at hc
  exact toDigitsCore_subset (n + 1) n [] (by simp) c hc

theorem toDigitsCore_ne_nil : ∀ (f n : Nat) (acc : List Char),
    acc ≠ [] ∨ 0 < f → Nat.toDigitsCore 10 f n acc ≠ [] := by
  intro f
  induction f with
  | zero =>
    intro n acc h
    rw [Nat.toDigitsCore]
    rcases h with h | h
    · exact h
    · omega
  | succ g ih =>
    intro n acc _
    rw [Nat.toDigitsCore]
    by_cases hz : n / 10 = 0
    · rw [if_pos hz]; simp
    · rw [if_neg hz]
      exact ih (n / 10) _ (Or.inl (by simp))

theorem sizeChars_ne_nil (n : Nat) : sizeChars n ≠ [] :=
  toDigitsCore_ne_nil (n + 1) n [] (Or.inr (by omega))

/-! ### `pyStrip` facts -/

theorem dropWhile_eq_self_of {p : Char → Bool} {l : List Char}
    (h : ∀ c ∈ l, p c = false) : l.dropWhile p = l := by
  cases l with
  | nil => rfl
  | cons c t =>
    rw [List.dropWhile_cons, if_neg (by rw [h c (by simp)]; simp)]

theorem pyStrip_all_nonspace {l : List Char} (h : ∀ c ∈ l, pyIsSpace c = false) :
    pyStrip l = l := by
  unfold pyStrip
  rw [dropWhile_eq_self_of h, dropWhile_eq_self_of (fun c hc => h c (List.mem_reverse.mp hc)),
    List.reverse_reverse]

theorem pyStrip_cons_space {c : Char} {l : List Char} (h : pyIsSpace c = true) :
    pyStrip (c :: l) = pyStrip l := by
  unfold pyStrip
  rw [List.dropWhile_cons, if_pos h]

theorem pyStrip_of_ends_nonspace {l : List Char} (hne : l ≠ [])
    (hhd : pyIsSpace (l.headD ' ') = false) (hlast : pyIsSpace (l.getLastD ' ') = false) :
    pyStrip l = l := by
  obtain ⟨h0, t, rfl⟩ : ∃ h0 t, l = h0 :: t := by
    cases l with
    | nil => simp at hne
    | cons h0 t => exact ⟨h0, t, rfl⟩
  have hhd' : pyIsSpace h0 = false := hhd
  have hg : (h0 :: t).getLastD ' ' = (h0 :: t).getLast (by simp) := by
    rw [List.getLastD_eq_getLast?, List.getLast?_eq_getLast _ (by simp)]
    rfl
  rw [hg] at hlast
  unfold pyStrip
  rw [List.dropWhile_cons, if_neg (by rw [hhd']; simp)]
  have h3 : (h0 :: t).reverse = (h0 :: t).getLast (by simp) :: (h0 :: t).dropLast.reverse := by
    conv_lhs => rw [← List.dropLast_append_getLast (l := h0 :: t) (by simp)]
    rw [List.reverse_append]
    rfl
  rw [h3, List.dropWhile_cons, if_neg (by rw [hlast]; simp), ← h3, List.reverse_reverse]

theorem pyStrip_wrap {a : List Char} (hne : a ≠ [])
    (hhd : ∀ x, a.head? = some x → pyIsSpace x = false)
    (hlast : ∀ x, a.getLast? = some x → pyIsSpace x = false) :
    pyStrip ('\n' :: (a ++ ['\n'])) = a := by
  obtain ⟨h0, t, rfl⟩ : ∃ h0 t, a = h0 :: t := by
    cases a with
    | nil => simp at hne
    | cons h0 t => exact ⟨h0, t, rfl⟩
  unfold pyStrip
  have h1 : List.dropWhile pyIsSpace ('\n' :: ((h0 :: t) ++ ['\n'])) = (h0 :: t) ++ ['\n'] := by
    rw [List.dropWhile_cons, if_pos (by decide)]
    rw [List.cons_append, List.dropWhile_cons, if_neg (by rw [hhd h0 rfl]; simp)]
  rw [h1]
  have h2 : ((h0 :: t) ++ ['\n']).reverse = '\n' :: (h0 :: t).reverse := by
    rw [List.reverse_append]; rfl
  rw [h2, List.dropWhile_cons, if_pos (by decide)]
  have hg : (h0 :: t).getLast? = some ((h0 :: t).getLast (by simp)) :=
    List.getLast?_eq_getLast _ _
  have h3 : (h0 :: t).reverse = (h0 :: t).getLast (by simp) :: (h0 :: t).dropLast.reverse := by
    conv_lhs => rw [← List.dropLast_append_getLast (l := h0 :: t) (by simp)]
    rw [List.reverse_append]; rfl
  rw [h3, List.dropWhile_cons, if_neg (by rw [hlast _ hg]; simp), ← h3,
    List.reverse_reverse]

/-! ### Structure of one record under the unpack parser -/

theorem no_bracket_no_boundary {l : List Char} (h : '[' ∉ l) : ¬ BOUNDARY <:+: l :=
  fun hx => h (hx.subset (by decide))

theorem data_nl_path : "\nPath: ".data = '\n' :: "Path: ".data := rfl

theorem data_nl_size : "\nSize: ".data = '\n' :: "Size: ".data := rfl

theorem data_nl_enc :
    "\nEncoding: Base64\n\n".data = '\n' :: ("Encoding: Base64".data ++ ['\n', '\n']) := rfl

theorem data_nl : "\n".data = ['\n'] := rfl

theorem data_path_colon : "Path: ".data = "Path".data ++ ':' :: [' '] := rfl

theorem data_size_colon : "Size: ".data = "Size".data ++ ':' :: [' '] := rfl

theorem getLast?_mem_of_eq {l : List Char} {x : Char} (h : l.getLast? = some x) : x ∈ l := by
  have hx : x ∈ l.getLast? := by rw [h]; rfl
  obtain ⟨hne, rfl⟩ := List.mem_getLast?_eq_getLast hx
  exact List.getLast_mem hne

theorem recordBody_eq_shape (rel : List Char) (content : List Nat) :
    recordBody rel content =
      (('\n' :: "Path: ".data) ++ rel) ++ '\n' ::
        (("Size: ".data ++ sizeChars content.length) ++ '\n' ::
          ("Encoding: Base64".data ++ '\n' ::
            ([] ++ '\n' :: (b64encode content ++ '\n' :: [])))) := by
  rw [recordBody, data_nl_path, data_nl_size, data_nl_enc, data_nl]
  simp [List.append_assoc]

theorem not_infix_recordBody {rel : List Char} {content : List Nat}
    (hrel : ¬ BOUNDARY <:+: rel) : ¬ BOUNDARY <:+: recordBody rel content := by
  intro hin
  rw [recordBody_eq_shape] at hin
  have hBne : BOUNDARY ≠ [] := by decide
  have hnl : '\n' ∉ BOUNDARY := by decide
  rcases infix_split_cons hnl hBne hin with h1 | hin2
  · exact hrel (infix_right_of_head_free '[' (by decide) (by decide) h1)
  rcases infix_split_cons hnl hBne hin2 with h2 | hin3
  · refine no_bracket_no_boundary ?_ h2
    intro hx
    rcases List.mem_append.mp hx with hx | hx
    · revert hx; decide
    · exact ((digits_props '[' (sizeChars_subset _ '[' hx)).2.2) rfl
  rcases infix_split_cons hnl hBne hin3 with h3 | hin4
  · exact no_bracket_no_boundary (by decide) h3
  rcases infix_split_cons hnl hBne hin4 with h4 | hin5
  · rw [List.infix_nil] at h4; exact hBne h4
  rcases infix_split_cons hnl hBne hin5 with h5 | hin6
  · refine no_bracket_no_boundary ?_ h5
    intro hx
    exact ((b64Chars_props '[' (b64encode_subset _ '[' hx)).2.2) rfl
  · rw [List.infix_nil] at hin6; exact hBne hin6

/-! ### `hasNLNL` and header-splitting facts -/

theorem hasNLNL_of_no_nl {a : List Char} (h : '\n' ∉ a) : hasNLNL a = false := by
  induction a with
  | nil => rfl
  | cons c t ih =>
    simp only [hasNLNL, Bool.or_eq_false_iff, decide_eq_false_iff_not]
    exact ⟨fun hc => h (hc.1 ▸ List.mem_cons_self _ _),
      ih (fun hx => h (List.mem_cons_of_mem _ hx))⟩

theorem hasNLNL_append_cons {a rest : List Char} (ha : '\n' ∉ a)
    (hh : rest.head? ≠ some '\n') (hr : hasNLNL rest = false) :
    hasNLNL (a ++ '\n' :: rest) = false := by
  induction a with
  | nil =>
    simp only [List.nil_append, hasNLNL, Bool.or_eq_false_iff, decide_eq_false_iff_not]
    exact ⟨fun hc => hh hc.2, hr⟩
  | cons c t ih =>
    simp only [List.cons_append, hasNLNL, Bool.or_eq_false_iff, decide_eq_false_iff_not]
    exact ⟨fun hc => ha (hc.1 ▸ List.mem_cons_self _ _),
      ih (fun hx => ha (List.mem_cons_of_mem _ hx))⟩

theorem splitChar_no_sep {sep : Char} {a : List Char} (h : sep ∉ a) :
    splitChar sep a = [a] := by
  induction a with
  | nil => rfl
  | cons c t ih =>
    have hcne : ¬ (c = sep) := fun hc => h (hc ▸ List.mem_cons_self _ _)
    simp only [splitChar]
    rw [if_neg hcne]
    rw [ih (fun hx => h (List.mem_cons_of_mem _ hx))]

theorem splitChar_append {sep : Char} {a b : List Char} (h : sep ∉ a) :
    splitChar sep (a ++ sep :: b) = a :: splitChar sep b := by
  induction a with
  | nil => simp [splitChar]
  | cons c t ih =>
    have hcne : ¬ (c = sep) := fun hc => h (hc ▸ List.mem_cons_self _ _)
    simp only [List.cons_append, splitChar, List.append_eq]
    rw [if_neg hcne]
    rw [ih (fun hx => h (List.mem_cons_of_mem _ hx))]

theorem splitFirstChar_append {sep : Char} {a b : List Char} (h : sep ∉ a) :
    splitFirstChar sep (a ++ sep :: b) = some (a, b) := by
  induction a with
  | nil => simp [splitFirstChar]
  | cons c t ih =>
    have hcne : ¬ (c = sep) := fun hc => h (hc ▸ List.mem_cons_self _ _)
    simp only [List.cons_append, splitFirstChar, List.append_eq]
    rw [if_neg hcne]
    rw [ih (fun hx => h (List.mem_cons_of_mem _ hx))]
    rfl

theorem dictGet_three (k₁ v₁ k₂ v₂ k₃ v₃ k : List Char) :
    dictGet [(k₁, v₁), (k₂, v₂), (k₃, v₃)] k =
      if k₃ = k then some v₃ else if k₂ = k then some v₂ else
        if k₁ = k then some v₁ else none := rfl

/-! ### Processing a record produced by pack -/

theorem pyStrip_recordBody {rel : List Char} {content : List Nat}
    (hcne : content ≠ []) :
    pyStrip (recordBody rel content) =
      "Path: ".data ++ rel ++ "\nSize: ".data ++ sizeChars content.length ++
        "\nEncoding: Base64\n\n".data ++ b64encode content := by
  have henc_ne : b64encode content ≠ [] := b64encode_ne_nil _ hcne
  have hshape : recordBody rel content = '\n' ::
      (("Path: ".data ++ rel ++ "\nSize: ".data ++ sizeChars content.length ++
        "\nEncoding: Base64\n\n".data ++ b64encode content) ++ ['\n']) := by
    rw [recordBody, data_nl_path, data_nl]
    simp [List.append_assoc]
  rw [hshape]
  apply pyStrip_wrap
  · simp
  · intro x hx
    have hP : ("Path: ".data ++ rel ++ "\nSize: ".data ++ sizeChars content.length ++
        "\nEncoding: Base64\n\n".data ++ b64encode content).head? = some 'P' := rfl
    rw [hP] at hx
    injection hx with hx
    rw [← hx]
    decide
  · intro x hx
    rw [List.getLast?_append, List.getLast?_eq_getLast_of_ne_nil henc_ne] at hx
    have hx' : some ((b64encode content).getLast henc_ne) = some x := hx
    have hxm : x ∈ b64encode content := by
      injection hx' with h2
      rw [← h2]
      exact List.getLast_mem henc_ne
    exact (b64Chars_props x (b64encode_subset _ x hxm)).1

theorem processBlock_recordBody {rel : List Char} {content : List Nat}
    (hrel : goodPath rel) (hcon : goodContent content) :
    processBlock (recordBody rel content) = some (rel, WriteData.bytes content) := by
  obtain ⟨hne, -, hrelnl, hhd, hlast, hbnd⟩ := hrel
  obtain ⟨hcne, hbytes⟩ := hcon
  have henc_chars : ∀ c ∈ b64encode content, c ∈ b64Chars := b64encode_subset content
  have hsizenl : '\n' ∉ sizeChars content.length := fun hx =>
    (digits_props '\n' (sizeChars_subset _ '\n' hx)).2.1 rfl
  have hcoreshape : "Path: ".data ++ rel ++ "\nSize: ".data ++ sizeChars content.length ++
      "\nEncoding: Base64\n\n".data ++ b64encode content
      = (("Path: ".data ++ rel) ++ '\n' :: (("Size: ".data ++ sizeChars content.length)
          ++ '\n' :: "Encoding: Base64".data)) ++ '\n' :: '\n' :: b64encode content := by
    rw [data_nl_size, data_nl_enc]
    simp [List.append_assoc]
  have hANoNl : '\n' ∉ ("Path: ".data ++ rel) := by
    intro hx
    rcases List.mem_append.mp hx with hx | hx
    · revert hx; decide
    · exact hrelnl hx
  have hBNoNl : '\n' ∉ ("Size: ".data ++ sizeChars content.length) := by
    intro hx
    rcases List.mem_append.mp hx with hx | hx
    · revert hx; decide
    · exact hsizenl hx
  have hC : hasNLNL ("Encoding: Base64".data ++ '\n' :: ([] : List Char)) = false :=
    hasNLNL_append_cons (by decide) (by simp) rfl
  have hB : hasNLNL (("Size: ".data ++ sizeChars content.length)
      ++ '\n' :: ("Encoding: Base64".data ++ '\n' :: ([] : List Char))) = false := by
    apply hasNLNL_append_cons hBNoNl ?_ hC
    rw [show ("Encoding: Base64".data ++ '\n' :: ([] : List Char)).head? = some 'E' from rfl]
    simp
  have hA : hasNLNL (("Path: ".data ++ rel)
      ++ '\n' :: ((("Size: ".data ++ sizeChars content.length)
        ++ '\n' :: ("Encoding: Base64".data ++ '\n' :: ([] : List Char))))) = false := by
    apply hasNLNL_append_cons hANoNl ?_ hB
    rw [show (("Size: ".data ++ sizeChars content.length)
      ++ '\n' :: ("Encoding: Base64".data ++ '\n' :: ([] : List Char))).head? = some 'S' from rfl]
    simp
  have hnn : hasNLNL ((("Path: ".data ++ rel) ++ '\n' ::
      (("Size: ".data ++ sizeChars content.length)
        ++ '\n' :: "Encoding: Base64".data)) ++ ['\n']) = false := by
    rw [show ((("Path: ".data ++ rel) ++ '\n' :: (("Size: ".data ++ sizeChars content.length)
        ++ '\n' :: "Encoding: Base64".data)) ++ ['\n'])
      = ("Path: ".data ++ rel) ++ '\n' :: ((("Size: ".data ++ sizeChars content.length)
        ++ '\n' :: ("Encoding: Base64".data ++ '\n' :: ([] : List Char)))) from by
      simp [List.append_assoc]]
    exact hA
  have hsplit2 : splitTwoNL ("Path: ".data ++ rel ++ "\nSize: ".data ++
      sizeChars content.length ++ "\nEncoding: Base64\n\n".data ++ b64encode content)
      = some ((("Path: ".data ++ rel) ++ '\n' :: (("Size: ".data ++ sizeChars content.length)
          ++ '\n' :: "Encoding: Base64".data)), b64encode content) := by
    rw [hcoreshape]
    exact splitTwoNL_append hnn
  have hlines : splitChar '\n' (("Path: ".data ++ rel) ++ '\n' ::
      (("Size: ".data ++ sizeChars content.length) ++ '\n' :: "Encoding: Base64".data))
      = [("Path: ".data ++ rel), ("Size: ".data ++ sizeChars content.length),
          "Encoding: Base64".data] := by
    rw [splitChar_append hANoNl, splitChar_append hBNoNl, splitChar_no_sep (by decide)]
  have hline1 : parseHeaderLine ("Path: ".data ++ rel) = some ("Path".data, rel) := by
    simp only [parseHeaderLine]
    rw [show "Path: ".data ++ rel = "Path".data ++ ':' :: (' ' :: rel) from by
      rw [data_path_colon]; simp]
    rw [splitFirstChar_append (by decide)]
    show some (pyStrip "Path".data, pyStrip (' ' :: rel)) = some ("Path".data, rel)
    rw [show pyStrip "Path".data = "Path".data from rfl]
    rw [pyStrip_cons_space (by decide), pyStrip_of_ends_nonspace hne hhd hlast]
  have hline2 : parseHeaderLine ("Size: ".data ++ sizeChars content.length)
      = some ("Size".data, sizeChars content.length) := by
    simp only [parseHeaderLine]
    rw [show "Size: ".data ++ sizeChars content.length
        = "Size".data ++ ':' :: (' ' :: sizeChars content.length) from by
      rw [data_size_colon]; simp]
    rw [splitFirstChar_append (by decide)]
    show some (pyStrip "Size".data, pyStrip (' ' :: sizeChars content.length))
      = some ("Size".data, sizeChars content.length)
    rw [show pyStrip "Size".data = "Size".data from rfl]
    rw [pyStrip_cons_space (by decide),
      pyStrip_all_nonspace (fun c hc => (digits_props c (sizeChars_subset _ c hc)).1)]
  have hline3 : parseHeaderLine "Encoding: Base64".data
      = some ("Encoding".data, "Base64".data) := rfl
  have hheaders : parseHeaders (("Path: ".data ++ rel) ++ '\n' ::
      (("Size: ".data ++ sizeChars content.length) ++ '\n' :: "Encoding: Base64".data))
      = [("Path".data, rel), ("Size".data, sizeChars content.length),
          ("Encoding".data, "Base64".data)] := by
    rw [parseHeaders, hlines]
    simp only [List.filterMap_cons, hline1, hline2, hline3, List.filterMap_nil]
  have hget1 : dictGet [("Path".data, rel), ("Size".data, sizeChars content.length),
      ("Encoding".data, "Base64".data)] "Path".data = some rel := by
    rw [dictGet_three, if_neg (by decide), if_neg (by decide), if_pos rfl]
  have hget2 : dictGet [("Path".data, rel), ("Size".data, sizeChars content.length),
      ("Encoding".data, "Base64".data)] "Encoding".data = some "Base64".data := by
    rw [dictGet_three, if_pos rfl]
  have hdec : b64decode (pyStrip (b64encode content)) = some content := by
    rw [pyStrip_all_nonspace (fun c hc => (b64Chars_props c (henc_chars c hc)).1)]
    exact b64_roundtrip content hbytes
  simp only [processBlock]
  rw [pyStrip_recordBody hcne, hsplit2]
  simp only [hheaders, hget1, hget2, hdec, if_pos rfl, if_true]

/-! ### Unpacking a packed archive -/

theorem unpackBlocks_flatten (bodies : List (List Char))
    (hni : ∀ b ∈ bodies, ¬ BOUNDARY <:+: b)
    (hx : ∀ b ∈ bodies, (pyStrip b).isEmpty = false) :
    unpackBlocks ((bodies.map (fun b => BOUNDARY ++ b)).flatten) = bodies := by
  rw [unpackBlocks, splitBoundary_flatten bodies hni]
  rw [List.filter_cons, if_neg (by decide)]
  rw [List.filter_eq_self.mpr ?_]
  intro b hb
  rw [hx b hb]
  rfl

theorem filterMap_processBlock (files : List (List Char × List Nat))
    (h : ∀ f ∈ files, goodPath f.1 ∧ goodContent f.2) :
    (files.map (fun f => recordBody f.1 f.2)).filterMap processBlock
      = files.map (fun f => (f.1, WriteData.bytes f.2)) := by
  induction files with
  | nil => rfl
  | cons f fs ih =>
    simp only [List.map_cons, List.filterMap_cons,
      processBlock_recordBody (h f (List.mem_cons_self _ _)).1
        (h f (List.mem_cons_self _ _)).2]
    rw [ih (fun x hx => h x (List.mem_cons_of_mem _ hx))]

theorem packArchive_as_flatten (files : List (List Char × List Nat)) :
    packArchive files
      = ((files.map (fun f => recordBody f.1 f.2)).map (fun b => BOUNDARY ++ b)).flatten := by
  rw [packArchive, List.map_map]
  rfl

theorem good_bodies_no_marker (files : List (List Char × List Nat))
    (h : ∀ f ∈ files, goodPath f.1 ∧ goodContent f.2) :
    ∀ b ∈ files.map (fun f => recordBody f.1 f.2), ¬ BOUNDARY <:+: b := by
  intro b hb
  rw [List.mem_map] at hb
  obtain ⟨f, hf, rfl⟩ := hb
  exact not_infix_recordBody ((h f hf).1).2.2.2.2.2

theorem good_bodies_nonblank (files : List (List Char × List Nat))
    (h : ∀ f ∈ files, goodPath f.1 ∧ goodContent f.2) :
    ∀ b ∈ files.map (fun f => recordBody f.1 f.2), (pyStrip b).isEmpty = false := by
  intro b hb
  rw [List.mem_map] at hb
  obtain ⟨f, hf, rfl⟩ := hb
  rw [pyStrip_recordBody ((h f hf).2).1]
  rfl

theorem unpackWrites_packArchive (files : List (List Char × List Nat))
    (h : ∀ f ∈ files, goodPath f.1 ∧ goodContent f.2) :
    unpackWrites (packArchive files) = files.map (fun f => (f.1, WriteData.bytes f.2)) := by
  rw [unpackWrites, packArchive_as_flatten,
    unpackBlocks_flatten _ (good_bodies_no_marker files h) (good_bodies_nonblank files h),
    filterMap_processBlock files h]

theorem good_bodies_processed (files : List (List Char × List Nat))
    (h : ∀ f ∈ files, goodPath f.1 ∧ goodContent f.2) :
    ∀ b ∈ files.map (fun f => recordBody f.1 f.2), (processBlock b).isNone = false := by
  intro b hb
  rw [List.mem_map] at hb
  obtain ⟨f, hf, rfl⟩ := hb
  rw [processBlock_recordBody (h f hf).1 (h f hf).2]
  rfl

/-! ### Claim theorems (archive format) -/

/-- C1, counterexample: a directory tree consisting of one empty file
`a` (its path contains no boundary marker and matches no exclusion rule)
is packed into an archive from which `unpack` restores nothing: the
record's payload is empty, so the blank line separating headers from
payload is swallowed by `strip()` and the `split('\n\n', 1)` unpacking
raises, which skips the block.  The round trip therefore loses the file. -/
theorem c1_empty_file_lost :
    unpackWrites (packArchive [(['a'], [])]) = [] ∧
      [(['a'], ([] : List Nat))] ≠ [] := by
  constructor
  · rfl
  · simp

/-- C1, amended: for every list of packed files whose relative paths are
nonempty ASCII strings that contain no newline, neither start nor end with
whitespace (interior spaces and tabs are fine), and do not contain the
boundary marker, and whose contents are nonempty byte strings, unpacking
the archive produced by packing writes back exactly the packed files, each
with byte-for-byte identical content (each write goes to
`output_root / rel` for the file's relative path `rel`). -/
theorem c1_round_trip (files : List (List Char × List Nat))
    (h : ∀ f ∈ files, goodPath f.1 ∧ goodContent f.2) :
    unpackWrites (packArchive files) = files.map (fun f => (f.1, WriteData.bytes f.2)) :=
  unpackWrites_packArchive files h

theorem c1_round_trip_witness :
    (∀ f ∈ [(("my file.txt".data : List Char), ([104, 105] : List Nat))],
        goodPath f.1 ∧ goodContent f.2) ∧
    unpackWrites (packArchive [("my file.txt".data, [104, 105])])
      = [("my file.txt".data, WriteData.bytes [104, 105])] :=
  ⟨by decide, c1_round_trip [("my file.txt".data, [104, 105])] (by decide)⟩

set_option maxRecDepth 4096 in
/-- C3: the count `unpack` reports as `Total files restored` is
`len(file_blocks)`, which counts every non-blank segment, including a
segment that is skipped for lack of a `Path` header.  On an archive with
one good record (file `a`, content "hi") followed by one segment without
a `Path` header, the code reports 2 restored files while only 1 file is
written — contradicting both the spec's contract and the code's own
output message. -/
theorem c3_reported_count_mismatch :
    reportedRestored (packArchive [(['a'], [104, 105])] ++
        (BOUNDARY ++ "\nSize: 2\nEncoding: Base64\n\naGk=\n".data)) = 2 ∧
    (unpackWrites (packArchive [(['a'], [104, 105])] ++
        (BOUNDARY ++ "\nSize: 2\nEncoding: Base64\n\naGk=\n".data))).length = 1 := by
  constructor
  · rfl
  · rfl

/-- C7: an archive consisting of well-formed records, with one corrupted
record (missing its `Path` header) inserted between them, still unpacks
every well-formed record to its exact path and content, and the corrupted
record is skipped with a warning (it is the single skipped block). -/
theorem c7_malformed_block_tolerance (files1 files2 : List (List Char × List Nat))
    (h1 : ∀ f ∈ files1, goodPath f.1 ∧ goodContent f.2)
    (h2 : ∀ f ∈ files2, goodPath f.1 ∧ goodContent f.2) :
    unpackWrites (packArchive files1 ++
        (BOUNDARY ++ "\nSize: 3\nEncoding: Base64\n\nZm9v\n".data) ++ packArchive files2)
      = files1.map (fun f => (f.1, WriteData.bytes f.2))
        ++ files2.map (fun f => (f.1, WriteData.bytes f.2)) ∧
    unpackSkipped (packArchive files1 ++
        (BOUNDARY ++ "\nSize: 3\nEncoding: Base64\n\nZm9v\n".data) ++ packArchive files2)
      = 1 := by
  have harch : packArchive files1 ++
      (BOUNDARY ++ "\nSize: 3\nEncoding: Base64\n\nZm9v\n".data) ++ packArchive files2
      = (((files1.map (fun f => recordBody f.1 f.2)
          ++ "\nSize: 3\nEncoding: Base64\n\nZm9v\n".data
            :: files2.map (fun f => recordBody f.1 f.2))).map
              (fun b => BOUNDARY ++ b)).flatten := by
    rw [packArchive_as_flatten, packArchive_as_flatten]
    simp [List.map_append, List.flatten_append]
  have hblocks : unpackBlocks (packArchive files1 ++
      (BOUNDARY ++ "\nSize: 3\nEncoding: Base64\n\nZm9v\n".data) ++ packArchive files2)
      = files1.map (fun f => recordBody f.1 f.2)
        ++ "\nSize: 3\nEncoding: Base64\n\nZm9v\n".data
          :: files2.map (fun f => recordBody f.1 f.2) := by
    rw [harch]
    apply unpackBlocks_flatten
    · intro b hb
      rcases List.mem_append.mp hb with hb | hb
      · exact good_bodies_no_marker files1 h1 b hb
      · rcases List.mem_cons.mp hb with rfl | hb
        · decide
        · exact good_bodies_no_marker files2 h2 b hb
    · intro b hb
      rcases List.mem_append.mp hb with hb | hb
      · exact good_bodies_nonblank files1 h1 b hb
      · rcases List.mem_cons.mp hb with rfl | hb
        · decide
        · exact good_bodies_nonblank files2 h2 b hb
  constructor
  · rw [unpackWrites, hblocks, List.filterMap_append, filterMap_processBlock files1 h1]
    rw [List.filterMap_cons]
    rw [show processBlock "\nSize: 3\nEncoding: Base64\n\nZm9v\n".data = none from rfl]
    rw [filterMap_processBlock files2 h2]
  · rw [unpackSkipped, hblocks, List.filter_append, List.filter_cons]
    rw [show (processBlock "\nSize: 3\nEncoding: Base64\n\nZm9v\n".data).isNone = true
      from rfl]
    rw [if_pos rfl]
    rw [List.filter_eq_nil_iff.mpr (fun b hb => by
      rw [good_bodies_processed files1 h1 b hb]; simp)]
    rw [List.filter_eq_nil_iff.mpr (fun b hb => by
      rw [good_bodies_processed files2 h2 b hb]; simp)]
    rfl

theorem c7_malformed_block_tolerance_witness :
    (∀ f ∈ [((['a'] : List Char), ([104] : List Nat))], goodPath f.1 ∧ goodContent f.2) ∧
    (∀ f ∈ [((['b'] : List Char), ([105] : List Nat))], goodPath f.1 ∧ goodContent f.2) ∧
    (unpackWrites (packArchive [(['a'], [104])] ++
        (BOUNDARY ++ "\nSize: 3\nEncoding: Base64\n\nZm9v\n".data)
        ++ packArchive [(['b'], [105])])
      = [(['a'], WriteData.bytes [104]), (['b'], WriteData.bytes [105])] ∧
    unpackSkipped (packArchive [(['a'], [104])] ++
        (BOUNDARY ++ "\nSize: 3\nEncoding: Base64\n\nZm9v\n".data)
        ++ packArchive [(['b'], [105])]) = 1) :=
  ⟨by decide, by decide,
    c7_malformed_block_tolerance [(['a'], [104])] [(['b'], [105])] (by decide) (by decide)⟩

/-- C8: the boundary marker never occurs as a substring of a base64
payload emitted by pack, for any input byte string: every character of
base64 output is in the base64 alphabet or `=`, and the marker's leading
`[` is not. -/
theorem c8_boundary_never_in_payload (bytes : List Nat) :
    ¬ (BOUNDARY <:+: b64encode bytes) := by
  apply no_bracket_no_boundary
  intro hx
  exact ((b64Chars_props '[' (b64encode_subset _ '[' hx)).2.2) rfl

/-! ### Path-normalization lemmas (for the unpack write location) -/

theorem splitChar_ne_nil {sep : Char} (a : List Char) : splitChar sep a ≠ [] := by
  cases a with
  | nil => simp [splitChar]
  | cons c t =>
    simp only [splitChar]
    by_cases hc : c = sep
    · rw [if_pos hc]; simp
    · rw [if_neg hc]
      cases h : splitChar sep t <;> simp

theorem splitChar_append_sep {sep : Char} (a b : List Char) :
    splitChar sep (a ++ sep :: b) = splitChar sep a ++ splitChar sep b := by
  induction a with
  | nil =>
    rw [List.nil_append]
    simp only [splitChar, if_pos rfl]
    rfl
  | cons c a' ih =>
    rw [List.cons_append]
    simp only [splitChar, List.append_eq]
    by_cases hc : c = sep
    · rw [if_pos hc, if_pos hc, ih]
      rfl
    · rw [if_neg hc, if_neg hc, ih]
      obtain ⟨hd, tl, he⟩ : ∃ hd tl, splitChar sep a' = hd :: tl := by
        cases h : splitChar sep a' with
        | nil => exact absurd h (splitChar_ne_nil a')
        | cons hd tl => exact ⟨hd, tl, rfl⟩
      rw [he]
      rfl

theorem normComps_join (root rel : List Char) :
    normComps (root ++ '/' :: rel) = (splitSlash rel).foldl normStep (normComps root) := by
  rw [normComps, normComps, splitSlash, splitSlash, splitSlash, splitChar_append_sep,
    List.foldl_append]

theorem foldl_normStep_clean (cs : List (List Char)) (s : List (List Char))
    (h : ∀ c ∈ cs, c ≠ "..".data) :
    cs.foldl normStep s = s ++ cs.filter isRealComp := by
  induction cs generalizing s with
  | nil => simp
  | cons c cs' ih =>
    rw [List.foldl_cons, List.filter_cons]
    by_cases hc : c = [] ∨ c = ".".data
    · have hs : normStep s c = s := by rw [normStep, if_pos hc]
      have hreal : isRealComp c = false := by
        rw [isRealComp, decide_eq_false_iff_not]
        tauto
      rw [hs, if_neg (by rw [hreal]; simp), ih _ (fun x hx => h x (List.mem_cons_of_mem _ hx))]
    · push_neg at hc
      have hs : normStep s c = s ++ [c] := by
        rw [normStep, if_neg (by tauto), if_neg (h c (List.mem_cons_self _ _))]
      have hreal : isRealComp c = true := by
        rw [isRealComp, decide_eq_true_eq]
        exact hc
      rw [hs, if_pos hreal, ih _ (fun x hx => h x (List.mem_cons_of_mem _ hx))]
      simp

/-- C2, counterexample: a record whose `Path` header is `../../etc/passwd`
is accepted unchanged by `unpack`, and the resulting write location
`output_root / Path` (here with `output_root = /dest/proj`) is not under
the output root: `pathlib` joining performs no sanitization, so `..`
components (or an absolute `Path`) escape `<destination>/<archive-stem>/`. -/
theorem c2_traversal_escape :
    unpackWrites (record "../../etc/passwd".data [7])
      = [("../../etc/passwd".data, WriteData.bytes [7])] ∧
    ¬ isStrictlyUnder "/dest/proj".data
        (joinPath "/dest/proj".data "../../etc/passwd".data) := by
  constructor
  · rfl
  · decide

/-- C2, amended: every write of `unpack` goes to `output_root / rel` where
`rel` is the record's `Path` value; whenever that value is a relative path
with no `..` components and at least one real component, the write location
is strictly under the output root.  (Absolute `Path` values or `..`
components can escape, as the counterexample shows.) -/
theorem c2_unpack_write_containment (archive outRoot : List Char) :
    ∀ w ∈ unpackWrites archive,
      w.1.head? ≠ some '/' →
      (∀ c ∈ splitSlash w.1, c ≠ "..".data) →
      (∃ c ∈ splitSlash w.1, isRealComp c = true) →
      isStrictlyUnder outRoot (joinPath outRoot w.1) := by
  intro w _ habs hdd hreal
  rw [joinPath, if_neg habs]
  constructor
  · rw [normComps_join, foldl_normStep_clean _ _ hdd]
    exact List.prefix_append _ _
  · rw [normComps_join, foldl_normStep_clean _ _ hdd]
    obtain ⟨c, hc, hcr⟩ := hreal
    intro heq
    have hnil : (splitSlash w.1).filter isRealComp = [] := by
      have hlen := congrArg List.length heq
      rw [List.length_append] at hlen
      exact List.eq_nil_of_length_eq_zero (by omega)
    have : c ∈ ([] : List (List Char)) := hnil ▸ List.mem_filter.mpr ⟨hc, hcr⟩
    simp at this

theorem c2_unpack_write_containment_witness :
    (("sub/f.txt".data, WriteData.bytes [104]) ∈
        unpackWrites (record "sub/f.txt".data [104])) ∧
    isStrictlyUnder "/dest/proj".data (joinPath "/dest/proj".data "sub/f.txt".data) :=
  ⟨by decide,
    c2_unpack_write_containment (record "sub/f.txt".data [104]) "/dest/proj".data
      ("sub/f.txt".data, WriteData.bytes [104]) (by decide) (by decide) (by decide)
      (by decide)⟩

/-! ### Determinism and sort order of pack -/

/-- C4: pack is a function of the file *set*: two enumerations of the same
set of absolute paths (with the same file contents `g`) produce
byte-identical archive text, because the loop iterates `sorted(files)`. -/
theorem c4_pack_deterministic (base : List Char) (g : List Char → List Nat)
    {paths1 paths2 : List (List Char)} (h : paths1.Perm paths2) :
    pack base paths1 g = pack base paths2 g := by
  have hsort : List.insertionSort (· ≤ ·) paths1 = List.insertionSort (· ≤ ·) paths2 :=
    List.eq_of_perm_of_sorted
      ((List.perm_insertionSort _ _).trans (h.trans (List.perm_insertionSort _ _).symm))
      (List.sorted_insertionSort _ _) (List.sorted_insertionSort _ _)
  rw [pack, pack, hsort]

theorem c4_pack_deterministic_witness :
    (["/p/b".data, "/p/a".data].Perm ["/p/a".data, "/p/b".data]) ∧
    pack "/p".data ["/p/b".data, "/p/a".data] (fun _ => [104])
      = pack "/p".data ["/p/a".data, "/p/b".data] (fun _ => [104]) :=
  ⟨by decide, c4_pack_deterministic "/p".data (fun _ => [104]) (by decide)⟩

/-- C5: the archive text pack produces is the concatenation of the files'
records in an order `s` that enumerates the file set in lexicographically
sorted order of the absolute path strings. -/
theorem c5_records_in_sorted_order (base : List Char) (paths : List (List Char))
    (g : List Char → List Nat) :
    ∃ s : List (List Char), paths.Perm s ∧ List.Sorted (· ≤ ·) s ∧
      pack base paths g
        = (s.filterMap (fun p => (relTo base p).map (fun rel => record rel (g p)))).flatten :=
  ⟨List.insertionSort (· ≤ ·) paths, (List.perm_insertionSort _ _).symm,
    List.sorted_insertionSort _ _, rfl⟩

/-- C6: the file set packed for a project target is exactly the project
file, its filters file when that file exists, plus the resolved target of
every `Include` attribute of an allow-listed item kind that names an
existing file — and nothing else.  (The archive is generated from this set
alone, see `pack`.) -/
theorem c6_project_fidelity (fs : List Char → Bool) (target : List Char)
    (items : List XmlItem) (x : List Char) :
    x ∈ filesToPackVcx fs target items ↔
      x = target ∨
      (x = target ++ ".filters".data ∧ fs (target ++ ".filters".data) = true) ∨
      (∃ it ∈ items, it.tag ∈ item_tags ∧ ∃ p, it.inc = some p ∧
        fs (joinPath (parentDir target) p) = true ∧
        x = resolveP (joinPath (parentDir target) p)) := by
  rw [filesToPackVcx]
  simp only [List.mem_cons, List.mem_append, parse_vcxproj, List.mem_filterMap]
  constructor
  · rintro (rfl | hfil | ⟨it, hit, hsome⟩)
    · exact Or.inl rfl
    · refine Or.inr (Or.inl ?_)
      by_cases hf : fs (target ++ ".filters".data) = true
      · rw [if_pos hf] at hfil
        simp only [List.mem_cons, List.not_mem_nil, or_false] at hfil
        exact ⟨hfil, hf⟩
      · rw [if_neg hf] at hfil
        simp at hfil
    · refine Or.inr (Or.inr ?_)
      by_cases ht : it.tag ∈ item_tags
      · rw [if_pos ht] at hsome
        cases hinc : it.inc with
        | none => rw [hinc] at hsome; simp at hsome
        | some p =>
          rw [hinc] at hsome
          dsimp only at hsome
          by_cases hfs : fs (joinPath (parentDir target) p) = true
          · rw [if_pos hfs] at hsome
            exact ⟨it, hit, ht, p, hinc, hfs, (Option.some.inj hsome).symm⟩
          · rw [if_neg hfs] at hsome
            simp at hsome
      · rw [if_neg ht] at hsome
        simp at hsome
  · rintro (rfl | ⟨rfl, hf⟩ | ⟨it, hit, ht, p, hp, hfs, rfl⟩)
    · exact Or.inl rfl
    · refine Or.inr (Or.inl ?_)
      rw [if_pos hf]
      simp
    · refine Or.inr (Or.inr ?_)
      refine ⟨it, hit, ?_⟩
      rw [if_pos ht, hp]
      dsimp only
      rw [if_pos hfs]

/-! ### C10: an include that resolves outside the base directory -/

theorem pack_drops_unrelatable (base : List Char) (paths : List (List Char))
    (g : List Char → List Nat) (q : List Char) (hq : relTo base q = none) :
    pack base paths g = pack base (paths.filter (fun x => decide (x ≠ q))) g := by
  rw [pack, pack]
  have hsf : List.insertionSort (· ≤ ·) (paths.filter (fun x => decide (x ≠ q)))
      = (List.insertionSort (· ≤ ·) paths).filter (fun x => decide (x ≠ q)) :=
    List.eq_of_perm_of_sorted
      ((List.perm_insertionSort _ _).trans
        (List.Perm.filter _ (List.perm_insertionSort _ _).symm))
      (List.sorted_insertionSort _ _)
      (List.Sorted.filter _ (List.sorted_insertionSort _ _))
  rw [hsf]
  congr 1
  generalize (List.insertionSort (· ≤ ·) paths) = l
  induction l with
  | nil => rfl
  | cons a l ih =>
    rw [List.filter_cons]
    by_cases ha : a = q
    · subst ha
      rw [if_neg (by simp)]
      simp only [List.filterMap_cons, hq, Option.map_none']
      exact ih
    · rw [if_pos (by simp [ha])]
      simp only [List.filterMap_cons]
      rw [ih]

theorem packSkipped_pos (base : List Char) (paths : List (List Char)) (q : List Char)
    (hmem : q ∈ paths) (hq : relTo base q = none) : 1 ≤ packSkipped base paths := by
  rw [packSkipped]
  have hq' : q ∈ (List.insertionSort (· ≤ ·) paths).filter
      (fun p => (relTo base p).isNone) := by
    rw [List.mem_filter]
    exact ⟨(List.perm_insertionSort _ paths).mem_iff.mpr hmem, by rw [hq]; rfl⟩
  exact List.length_pos.mpr (List.ne_nil_of_mem hq')

/-- C10: an `Include` of an allow-listed item kind that resolves to an
existing file outside the project's base directory is accepted into
`files_to_pack`, but at archive-write time `relative_to(base_dir)` raises
for it, so it is dropped with a warning: the archive text equals the
archive of the remaining files, and the skipped-file count is positive. -/
theorem c10_outside_include_dropped (fs : List Char → Bool) (target : List Char)
    (items : List XmlItem) (g : List Char → List Nat) (it : XmlItem) (p : List Char)
    (hit : it ∈ items) (ht : it.tag ∈ item_tags) (hp : it.inc = some p)
    (hfs : fs (joinPath (parentDir target) p) = true)
    (hout : relTo (parentDir target) (resolveP (joinPath (parentDir target) p)) = none) :
    resolveP (joinPath (parentDir target) p) ∈ filesToPackVcx fs target items ∧
    pack (parentDir target) (filesToPackVcx fs target items) g
      = pack (parentDir target)
          ((filesToPackVcx fs target items).filter
            (fun x => decide (x ≠ resolveP (joinPath (parentDir target) p)))) g ∧
    1 ≤ packSkipped (parentDir target) (filesToPackVcx fs target items) := by
  have hmem : resolveP (joinPath (parentDir target) p) ∈ filesToPackVcx fs target items := by
    rw [filesToPackVcx]
    refine List.mem_cons_of_mem _ (List.mem_append_right _ ?_)
    rw [parse_vcxproj, List.mem_filterMap]
    refine ⟨it, hit, ?_⟩
    rw [if_pos ht, hp]
    dsimp only
    rw [if_pos hfs]
  exact ⟨hmem, pack_drops_unrelatable _ _ g _ hout, packSkipped_pos _ _ _ hmem hout⟩

theorem c10_outside_include_dropped_witness :
    ((⟨"ClCompile", some "../out.c".data⟩ : XmlItem).inc = some "../out.c".data) ∧
    relTo (parentDir "/proj/a.vcxproj".data)
      (resolveP (joinPath (parentDir "/proj/a.vcxproj".data) "../out.c".data)) = none ∧
    (resolveP (joinPath (parentDir "/proj/a.vcxproj".data) "../out.c".data) ∈
      filesToPackVcx
        (fun q => decide (q = "/proj/a.vcxproj".data) || decide (q = "/proj/../out.c".data))
        "/proj/a.vcxproj".data [⟨"ClCompile", some "../out.c".data⟩] ∧
    pack (parentDir "/proj/a.vcxproj".data)
        (filesToPackVcx
          (fun q => decide (q = "/proj/a.vcxproj".data) || decide (q = "/proj/../out.c".data))
          "/proj/a.vcxproj".data [⟨"ClCompile", some "../out.c".data⟩]) (fun _ => [104])
      = pack (parentDir "/proj/a.vcxproj".data)
          ((filesToPackVcx
            (fun q => decide (q = "/proj/a.vcxproj".data) || decide (q = "/proj/../out.c".data))
            "/proj/a.vcxproj".data [⟨"ClCompile", some "../out.c".data⟩]).filter
              (fun x => decide (x ≠ resolveP
                (joinPath (parentDir "/proj/a.vcxproj".data) "../out.c".data))))
          (fun _ => [104]) ∧
    1 ≤ packSkipped (parentDir "/proj/a.vcxproj".data)
        (filesToPackVcx
          (fun q => decide (q = "/proj/a.vcxproj".data) || decide (q = "/proj/../out.c".data))
          "/proj/a.vcxproj".data [⟨"ClCompile", some "../out.c".data⟩])) :=
  ⟨rfl, by decide,
    c10_outside_include_dropped
      (fun q => decide (q = "/proj/a.vcxproj".data) || decide (q = "/proj/../out.c".data))
      "/proj/a.vcxproj".data [⟨"ClCompile", some "../out.c".data⟩] (fun _ => [104])
      ⟨"ClCompile", some "../out.c".data⟩ "../out.c".data
      (by decide) (by decide) rfl (by decide) (by decide)⟩

mutual

theorem collect_clean : ∀ t : DirTree, ∀ q ∈ collect t, pathClean q = true
  | .node files subdirs => by
    intro q hq
    rw [collect] at hq
    rcases List.mem_append.mp hq with hq | hq
    · rw [List.mem_filterMap] at hq
      obtain ⟨f, _, hsome⟩ := hq
      by_cases hc : lowerS f ∉ DEFAULT_EXCLUDES_files ∧
          lowerS (pathSuffix f) ∉ DEFAULT_EXCLUDES_exts
      · rw [if_pos hc] at hsome
        obtain rfl := Option.some.inj hsome
        simp [pathClean, hc.1, hc.2]
      · rw [if_neg hc] at hsome
        simp at hsome
    · exact collectF_clean subdirs q hq

theorem collectF_clean : ∀ fo : DirForest, ∀ q ∈ collectF fo, pathClean q = true
  | .nil => by
    intro q hq
    rw [collectF] at hq
    simp at hq
  | .cons name d rest => by
    intro q hq
    rw [collectF] at hq
    rcases List.mem_append.mp hq with hq | hq
    · by_cases hc : lowerS name ∉ DEFAULT_EXCLUDES_dirs
      · rw [if_pos hc] at hq
        rw [List.mem_map] at hq
        obtain ⟨q', hq', rfl⟩ := hq
        have hclean := collect_clean d q' hq'
        simp only [pathClean, List.all_cons, Bool.and_eq_true, decide_eq_true_eq]
          at hclean ⊢
        exact ⟨⟨⟨hc, hclean.1.1⟩, hclean.1.2⟩, hclean.2⟩
      · rw [if_neg hc] at hq
        simp at hq
    · exact collectF_clean rest q hq

end

/-- C9: every file reported by the directory walk satisfies all three
exclusion conditions; contrapositively, a file whose lower-cased name is an
excluded file name, or whose lower-cased suffix is an excluded extension,
or that lies below a directory (under the root) with an excluded
lower-cased name, never appears in a directory-based pack's file set. -/
theorem c9_exclusion_correctness : ∀ t : DirTree, (collect t).all pathClean = true :=
  fun t => List.all_eq_true.mpr (collect_clean t)

end SourcePacker
